import Mathlib

/-!
Verification of the subdecks2tags add-on core logic: the note-tagging pass
(`collect_note_tag_updates`, `apply_tags_to_notes`) and the deck-flattening
pass (`reassign_subdeck_cards_to_head`), shallowly embedded over an explicit
collection state.  Host-store primitives (deck resolution/creation, deck
removal, the note tag container) are modelled from the specification's
collaborator contract; everything else is translated from the add-on source.
-/

namespace S2T

/-! ### Python string primitives

The source manipulates deck paths with `str.split`, `str.startswith`,
`str.replace` and `"::".join`.  These are embedded as structurally
recursive functions over the character data so that concrete runs reduce
inside the kernel. -/

/-- Worker for `pySplit`: scans the character list; `skip` counts separator
characters still to be consumed after a match (the first matched character
is consumed by the emitting step itself). -/
def splitSepAux (sep : List Char) : List Char → List Char → Nat → List (List Char)
  | [], acc, _ => [acc.reverse]
  | _ :: cs, acc, Nat.succ n => splitSepAux sep cs acc n
  | c :: cs, acc, 0 =>
    if sep.isPrefixOf (c :: cs) then
      acc.reverse :: splitSepAux sep cs [] (sep.length - 1)
    else
      splitSepAux sep cs (c :: acc) 0

/-- Python `s.split(sep)` for a non-empty separator: left-to-right,
non-overlapping matches. -/
def pySplit (s sep : String) : List String :=
  (splitSepAux sep.data s.data [] 0).map (fun cs => ⟨cs⟩)

/-- Python `sep.join(parts)`. -/
def joinSep (sep : String) : List String → String
  | [] => ""
  | [s] => s
  | s :: rest => s ++ sep ++ joinSep sep rest

/-- Python `s.startswith(p)`: code-point prefix test. -/
def pyStartsWith (s p : String) : Bool :=
  p.data.isPrefixOf s.data

/-- Python `s.replace(old, new)` for a non-empty `old`: split on `old`,
join with `new` (both scan left-to-right over non-overlapping matches). -/
def pyReplace (s old new : String) : String :=
  joinSep new (pySplit s old)

/-! ### Data model

Decks, cards and notes as the add-on observes them through the collection:
a deck is an id plus a `::`-separated display path, a card holds foreign
keys to its home deck and its note, a note carries a tag set (the host
store keeps tags unique, per the collaborator contract). -/

structure Deck where
  id : Nat
  name : String
  deriving DecidableEq, Repr

structure Card where
  id : Nat
  nid : Nat
  did : Nat
  deriving DecidableEq, Repr

structure Note where
  id : Nat
  tags : Finset String
  deriving DecidableEq

/-- Collection state: the deck list, the card table, the note table, the
next fresh deck id handed out by deck creation, and the transient
attribute the flattening op stashes on the collection object
(`col._preserved_level_msgs`), `none` when the attribute is absent. -/
structure Col where
  decks : List Deck
  cards : List Card
  notes : List Note
  nextDeckId : Nat
  scratch : Option (List String)
  deriving DecidableEq

/-- Well-formed collection: distinct deck ids, distinct deck names,
distinct card ids, and the fresh-id counter above every existing deck id. -/
def WF (col : Col) : Prop :=
  (col.decks.map (fun d => d.id)).Nodup ∧
  (col.decks.map (fun d => d.name)).Nodup ∧
  (col.cards.map (fun c => c.id)).Nodup ∧
  ∀ d ∈ col.decks, d.id < col.nextDeckId

instance (col : Col) : Decidable (WF col) := by
  unfold WF; infer_instance

/-! ### Path helpers (from the source's inline computations) -/

/-- `len(name.split("::")) - 1`, the depth computation at source line 183. -/
def deckDepth (name : String) : Nat :=
  (pySplit name "::").length - 1

/-- `"::".join(parts[:preserve_levels + 1])`, the target-path computation at
source lines 192-193. -/
def truncatePath (name : String) (preserve : Nat) : String :=
  joinSep "::" ((pySplit name "::").take (preserve + 1))

/-! ### Store primitives (collaborator contract) -/

/-- Id of the first deck carrying the given display path, if any. -/
def findDeckIdByName (decks : List Deck) (name : String) : Option Nat :=
  (decks.find? (fun d => d.name == name)).map (fun d => d.id)

/-- Register a deck for `name` when none exists yet, using the fresh id
counter; otherwise leave the collection unchanged. -/
def ensureDeck (col : Col) (name : String) : Col :=
  match findDeckIdByName col.decks name with
  | some _ => col
  | none =>
    { col with
        decks := col.decks ++ [⟨col.nextDeckId, name⟩]
        nextDeckId := col.nextDeckId + 1 }

/-- The `::`-joined ancestor paths of `name`, shortest first, ending with the
full path. -/
def pathAncestry (name : String) : List String :=
  (List.range (pySplit name "::").length).map
    (fun i => joinSep "::" ((pySplit name "::").take (i + 1)))

/-- Modelled from the spec: `resolve_or_create_deck(path) -> id` — the host
store's `col.decks.id(name)`, which resolves the deck for a display path,
lazily creating it and any missing ancestor segments, and returns its id. -/
def decksId (col : Col) (name : String) : Nat × Col :=
  let colA := (pathAncestry name).foldl ensureDeck col
  let colB := ensureDeck colA name
  ((findDeckIdByName colB.decks name).getD 0, colB)

/-- `SELECT id FROM cards WHERE did = ?` (source line 196). -/
def cardIdsInDeck (col : Col) (did : Nat) : List Nat :=
  (col.cards.filter (fun c => c.did == did)).map (fun c => c.id)

/-- `SELECT COUNT(1) FROM cards WHERE did = ?` (source line 255). -/
def countCards (col : Col) (did : Nat) : Nat :=
  (col.cards.filter (fun c => c.did == did)).length

/-- Modelled from the spec: `delete_deck(deck_id) -> void`, which "fails with
a deck-in-use or deck-not-found condition if misused" — the host store's
`col.decks.remove([deck_id])`.  Failure is abstracted by the oracle
`fails`; on success the deck leaves the deck list. -/
def decksRemove (fails : Nat → Bool) (col : Col) (did : Nat) : Except String Col :=
  if fails did then Except.error "deck removal failed"
  else Except.ok { col with decks := col.decks.filter (fun d => !(d.id == did)) }

/-- The host operation-change summary returned by a collection op
(`OpChanges()` in the source): it carries no payload. -/
inductive OpChanges : Type
  | mk : OpChanges
  deriving DecidableEq, Repr

/-! ### Flattening engine (`reassign_subdeck_cards_to_head`, source
lines 155-297), decomposed phase by phase. -/

/-- Phase at source lines 177-203: walk the subdeck worklist; skip a deck
whose depth is within the preserved zone, otherwise resolve-or-create its
truncated target path and pair every card currently homed in it with the
target deck id. -/
def collectReassigns (preserve : Nat) : List Deck → Col → Col × List (Nat × Nat)
  | [], col => (col, [])
  | d :: rest, col =>
    if deckDepth d.name ≤ preserve then
      collectReassigns preserve rest col
    else
      let rc := decksId col (truncatePath d.name preserve)
      let cids := cardIdsInDeck rc.2 d.id
      let r := collectReassigns preserve rest rc.2
      (r.1, cids.map (fun cid => (cid, rc.1)) ++ r.2)

/-- One step of the grouping dict at source lines 211-215: file `cid` under
key `t`, appending to an existing group or opening a new one. -/
def insertGroup (gs : List (Nat × List Nat)) (t cid : Nat) : List (Nat × List Nat) :=
  if gs.any (fun g => g.1 == t) then
    gs.map (fun g => if g.1 == t then (g.1, g.2 ++ [cid]) else g)
  else
    gs ++ [(t, [cid])]

/-- `new_did_to_cards`: group the pending reassignments by target deck id,
in insertion order. -/
def groupByTarget (pairs : List (Nat × Nat)) : List (Nat × List Nat) :=
  pairs.foldl (fun gs p => insertGroup gs p.2 p.1) []

/-- `UPDATE cards SET did = ? WHERE id IN (...)` (source line 233) for one
target group. -/
def applyGroup (col : Col) (t : Nat) (cids : List Nat) : Col :=
  { col with
      cards := col.cards.map (fun c => if c.id ∈ cids then { c with did := t } else c) }

/-- The reassignment loop at source lines 217-238, one batched update per
target group. -/
def applyGroups (col : Col) (gs : List (Nat × List Nat)) : Col :=
  gs.foldl (fun col g => applyGroup col g.1 g.2) col

/-- The emptiness re-scan at source lines 246-257: descendant decks of the
root that exceed the preserve level and now count zero cards, paired as
(id, name) in deck-list order. -/
def emptyFlattenedSubdecks (root : String) (preserve : Nat) (col : Col) : List (Nat × String) :=
  (col.decks.filter (fun d =>
      pyStartsWith d.name (root ++ "::") &&
      decide (preserve < deckDepth d.name) &&
      (countCards col d.id == 0))).map (fun d => (d.id, d.name))

/-- The removal loop at source lines 260-270: attempt each candidate
independently; a failed removal is logged and skipped, a successful one
records the deck's name. -/
def removeLoop (fails : Nat → Bool) : List (Nat × String) → Col → List String → Col × List String
  | [], col, removed => (col, removed)
  | q :: rest, col, removed =>
    match decksRemove fails col q.1 with
    | Except.ok col2 => removeLoop fails rest col2 (removed ++ [q.2])
    | Except.error _ => removeLoop fails rest col removed

/-- `head_deck_id = col.decks.id(deck_name)` (source line 164): the root
deck is resolved or created before anything else; only the state change
matters since the returned id is never used again. -/
def flattenPrep (root : String) (col : Col) : Col :=
  (decksId col root).2

/-- The subdeck filter at source lines 168 and 174: decks whose name starts
with the root name followed by `::`. -/
def subdecksOf (root : String) (col : Col) : List Deck :=
  col.decks.filter (fun d => pyStartsWith d.name (root ++ "::"))

/-- The collection state and pending (card id, target deck id) pairs after
the collection phase. -/
def flattenPairs (root : String) (preserve : Nat) (col : Col) : Col × List (Nat × Nat) :=
  collectReassigns preserve (subdecksOf root (flattenPrep root col)) (flattenPrep root col)

/-- The collection state once every batched reassignment has been applied. -/
def reassignedCol (root : String) (preserve : Nat) (col : Col) : Col :=
  applyGroups (flattenPairs root preserve col).1 (groupByTarget (flattenPairs root preserve col).2)

/-- The deletion candidates, re-scanned from the post-reassignment state. -/
def flattenCandidates (root : String) (preserve : Nat) (col : Col) : List (Nat × String) :=
  emptyFlattenedSubdecks root preserve (reassignedCol root preserve col)

/-- `preserved_level_msgs` (source line 175): initialised empty and never
appended to in this version of the code. -/
def preservedLevelMsgs : List String := []

/-- The whole `op` closure of `reassign_subdeck_cards_to_head` (source
lines 161-278): resolve the root, bail out early when it has no subdecks,
otherwise collect, group and apply the reassignments, re-scan for empty
flattening candidates, best-effort remove them, stash the preserved-level
messages on the collection object, and report the (empty) op changes. -/
def reassign_subdeck_cards_to_head (root : String) (preserve : Nat) (fails : Nat → Bool)
    (col : Col) : Except String (Col × OpChanges) :=
  if (subdecksOf root (flattenPrep root col)).isEmpty then
    Except.ok (flattenPrep root col, OpChanges.mk)
  else
    Except.ok
      ({ (removeLoop fails (flattenCandidates root preserve col)
            (reassignedCol root preserve col) []).1 with
          scratch := some preservedLevelMsgs },
        OpChanges.mk)

/-! ### Tagging engine (`collect_note_tag_updates`, source lines 19-59, and
`apply_tags_to_notes`, source lines 62-91) -/

/-- The deck scope of the tag pass (source line 29): every deck whose name
starts with the selected deck name — a bare prefix test, with no `::`
boundary. -/
def tagScopeDeckIds (col : Col) (deckName : String) : List Nat :=
  (col.decks.filter (fun d => pyStartsWith d.name deckName)).map (fun d => d.id)

/-- `is_descendant(path, root)` as the specification words it: true iff the
path equals the root or extends it past a `::` boundary.  Stated here only
to compare with the implementation's bare-prefix scope. -/
def is_descendant (path root : String) : Bool :=
  path == root || pyStartsWith path (root ++ "::")

/-- The per-note tag synthesis at source lines 47-55: for each of the
note's cards homed in a scoped deck, look the deck up and derive its tag
by replacing spaces with underscores; collect the tags as a set. -/
def noteTagSetFor (col : Col) (dids : List Nat) (nid : Nat) : Finset String :=
  ((col.cards.filter (fun c => c.nid == nid && decide (c.did ∈ dids))).filterMap
      (fun c => (col.decks.find? (fun d => d.id == c.did)).map
        (fun d => pyReplace d.name " " "_"))).toFinset

/-- `collect_note_tag_updates` (source lines 19-59): resolve the scoped
decks, their cards, the deduplicated owning note ids, and return one
(note, tag set) update per note with a non-empty synthesized tag set. -/
def collect_note_tag_updates (col : Col) (deckName : String) : List (Nat × Finset String) :=
  let dids : List Nat := tagScopeDeckIds col deckName
  if dids.isEmpty then []
  else
    let cids : List Nat := (col.cards.filter (fun c => decide (c.did ∈ dids))).map (fun c => c.id)
    if cids.isEmpty then []
    else
      let nids : List Nat := ((col.cards.filter (fun c => decide (c.id ∈ cids))).map (fun c => c.nid)).dedup
      nids.filterMap (fun nid =>
        let ts := noteTagSetFor col dids nid
        if ts.Nonempty then some (nid, ts) else none)

/-- Modelled from the spec: the host store's `note.add_tag` /
`col.update_note` pair keeps a note's tags as a unique, unordered set, so
adding a batch of tags and persisting amounts to a set union on the stored
note. -/
def updateNoteTags (col : Col) (nid : Nat) (ts : Finset String) : Col :=
  { col with
      notes := col.notes.map (fun n => if n.id = nid then { n with tags := n.tags ∪ ts } else n) }

/-- The `op` closure of `apply_tags_to_notes` (source lines 69-80): walk the
updates, add every derived tag to its note and persist it. -/
def apply_tags_to_notes (col : Col) (updates : List (Nat × Finset String)) : Col :=
  updates.foldl (fun c u => updateNoteTags c u.1 u.2) col

/-- The stored tag set of a note, empty when the note is absent. -/
def getNoteTags (col : Col) (nid : Nat) : Finset String :=
  ((col.notes.find? (fun n => n.id == nid)).map (fun n => n.tags)).getD ∅

/-! ### Lemmas about the store primitives -/

theorem ensureDeck_cards (col : Col) (n : String) : (ensureDeck col n).cards = col.cards := by
  cases h : findDeckIdByName col.decks n <;> simp [ensureDeck, h]

theorem ensureDeck_notes (col : Col) (n : String) : (ensureDeck col n).notes = col.notes := by
  cases h : findDeckIdByName col.decks n <;> simp [ensureDeck, h]

theorem ensureDeck_scratch (col : Col) (n : String) :
    (ensureDeck col n).scratch = col.scratch := by
  cases h : findDeckIdByName col.decks n <;> simp [ensureDeck, h]

theorem ensureDeck_decks_ext (col : Col) (n : String) :
    ∃ ext, (ensureDeck col n).decks = col.decks ++ ext := by
  cases h : findDeckIdByName col.decks n
  · exact ⟨[⟨col.nextDeckId, n⟩], by simp [ensureDeck, h]⟩
  · exact ⟨[], by simp [ensureDeck, h]⟩

theorem findDeckIdByName_append_of_some {decks : List Deck} {n : String} {i : Nat}
    (h : findDeckIdByName decks n = some i) (ext : List Deck) :
    findDeckIdByName (decks ++ ext) n = some i := by
  unfold findDeckIdByName at h ⊢
  cases hf : List.find? (fun d => d.name == n) decks with
  | none => rw [hf] at h; simp at h
  | some d =>
    rw [hf] at h
    rw [List.find?_append, hf]
    simpa using h

theorem ensureDeck_wf {col : Col} (hwf : WF col) (n : String) : WF (ensureDeck col n) := by
  obtain ⟨hid, hname, hcid, hfresh⟩ := hwf
  cases h : findDeckIdByName col.decks n with
  | some i => simpa [ensureDeck, h] using ⟨hid, hname, hcid, hfresh⟩
  | none =>
    refine ⟨?_, ?_, by simpa [ensureDeck, h] using hcid, ?_⟩
    · simp only [ensureDeck, h, List.map_append, List.map_cons, List.map_nil]
      rw [List.nodup_append]
      refine ⟨hid, by simp, ?_⟩
      intro x hx hx'
      simp at hx'
      subst hx'
      obtain ⟨d, hd, hdx⟩ := List.mem_map.mp hx
      exact absurd (hdx ▸ hfresh d hd) (lt_irrefl _)
    · simp only [ensureDeck, h, List.map_append, List.map_cons, List.map_nil]
      rw [List.nodup_append]
      refine ⟨hname, by simp, ?_⟩
      intro x hx hx'
      simp at hx'
      subst hx'
      obtain ⟨d, hd, hdx⟩ := List.mem_map.mp hx
      unfold findDeckIdByName at h
      rw [Option.map_eq_none'] at h
      have := List.find?_eq_none.mp h d hd
      simp [hdx] at this
    · intro d hd
      simp only [ensureDeck, h, List.mem_append, List.mem_cons] at hd
      rcases hd with hd | hd
      · exact Nat.lt_trans (by simpa [ensureDeck, h] using hfresh d hd) (by simp [ensureDeck, h])
      · simp at hd
        simp [ensureDeck, h, hd]

theorem foldl_ensureDeck_cards (names : List String) (col : Col) :
    (names.foldl ensureDeck col).cards = col.cards := by
  induction names generalizing col with
  | nil => rfl
  | cons n rest ih => simp [List.foldl_cons, ih, ensureDeck_cards]

theorem foldl_ensureDeck_notes (names : List String) (col : Col) :
    (names.foldl ensureDeck col).notes = col.notes := by
  induction names generalizing col with
  | nil => rfl
  | cons n rest ih => simp [List.foldl_cons, ih, ensureDeck_notes]

theorem foldl_ensureDeck_scratch (names : List String) (col : Col) :
    (names.foldl ensureDeck col).scratch = col.scratch := by
  induction names generalizing col with
  | nil => rfl
  | cons n rest ih => simp [List.foldl_cons, ih, ensureDeck_scratch]

theorem foldl_ensureDeck_decks_ext (names : List String) (col : Col) :
    ∃ ext, (names.foldl ensureDeck col).decks = col.decks ++ ext := by
  induction names generalizing col with
  | nil => exact ⟨[], by simp⟩
  | cons n rest ih =>
    obtain ⟨e1, he1⟩ := ensureDeck_decks_ext col n
    obtain ⟨e2, he2⟩ := ih (ensureDeck col n)
    exact ⟨e1 ++ e2, by simp [List.foldl_cons, he2, he1]⟩

theorem foldl_ensureDeck_wf {col : Col} (hwf : WF col) (names : List String) :
    WF (names.foldl ensureDeck col) := by
  induction names generalizing col with
  | nil => exact hwf
  | cons n rest ih => exact ih (ensureDeck_wf hwf n)

theorem decksId_cards (col : Col) (n : String) : (decksId col n).2.cards = col.cards := by
  simp [decksId, ensureDeck_cards, foldl_ensureDeck_cards]

theorem decksId_notes (col : Col) (n : String) : (decksId col n).2.notes = col.notes := by
  simp [decksId, ensureDeck_notes, foldl_ensureDeck_notes]

theorem decksId_scratch (col : Col) (n : String) :
    (decksId col n).2.scratch = col.scratch := by
  simp [decksId, ensureDeck_scratch, foldl_ensureDeck_scratch]

theorem decksId_decks_ext (col : Col) (n : String) :
    ∃ ext, (decksId col n).2.decks = col.decks ++ ext := by
  obtain ⟨e1, he1⟩ := foldl_ensureDeck_decks_ext (pathAncestry n) col
  obtain ⟨e2, he2⟩ := ensureDeck_decks_ext ((pathAncestry n).foldl ensureDeck col) n
  exact ⟨e1 ++ e2, by simp [decksId, he2, he1]⟩

theorem decksId_wf {col : Col} (hwf : WF col) (n : String) : WF (decksId col n).2 :=
  ensureDeck_wf (foldl_ensureDeck_wf hwf (pathAncestry n)) n

theorem ensureDeck_find_self (col : Col) (n : String) :
    ∃ i, findDeckIdByName (ensureDeck col n).decks n = some i := by
  cases h : findDeckIdByName col.decks n with
  | some i => exact ⟨i, by simp [ensureDeck, h]⟩
  | none =>
    refine ⟨col.nextDeckId, ?_⟩
    simp only [ensureDeck, h, findDeckIdByName, List.find?_append]
    unfold findDeckIdByName at h
    rw [Option.map_eq_none'] at h
    simp [h]

theorem decksId_find_self (col : Col) (n : String) :
    findDeckIdByName (decksId col n).2.decks n = some (decksId col n).1 := by
  obtain ⟨i, hi⟩ := ensureDeck_find_self ((pathAncestry n).foldl ensureDeck col) n
  simp [decksId, hi]

/-! ### Lemmas about the collection phase -/

theorem mem_cardIdsInDeck {col : Col} {did cid : Nat} :
    cid ∈ cardIdsInDeck col did ↔ ∃ c ∈ col.cards, c.id = cid ∧ c.did = did := by
  simp only [cardIdsInDeck, List.mem_map, List.mem_filter, beq_iff_eq]
  constructor
  · rintro ⟨c, ⟨hc, hdid⟩, hid⟩
    exact ⟨c, hc, hid, hdid⟩
  · rintro ⟨c, hc, hid, hdid⟩
    exact ⟨c, ⟨hc, hdid⟩, hid⟩

theorem collectReassigns_cards (preserve : Nat) (l : List Deck) (col : Col) :
    (collectReassigns preserve l col).1.cards = col.cards := by
  induction l generalizing col with
  | nil => rfl
  | cons d rest ih =>
    by_cases hd : deckDepth d.name ≤ preserve
    · simp only [collectReassigns, if_pos hd]
      exact ih col
    · simp only [collectReassigns, if_neg hd]
      rw [ih, decksId_cards]

theorem collectReassigns_notes (preserve : Nat) (l : List Deck) (col : Col) :
    (collectReassigns preserve l col).1.notes = col.notes := by
  induction l generalizing col with
  | nil => rfl
  | cons d rest ih =>
    by_cases hd : deckDepth d.name ≤ preserve
    · simp only [collectReassigns, if_pos hd]
      exact ih col
    · simp only [collectReassigns, if_neg hd]
      rw [ih, decksId_notes]

theorem collectReassigns_scratch (preserve : Nat) (l : List Deck) (col : Col) :
    (collectReassigns preserve l col).1.scratch = col.scratch := by
  induction l generalizing col with
  | nil => rfl
  | cons d rest ih =>
    by_cases hd : deckDepth d.name ≤ preserve
    · simp only [collectReassigns, if_pos hd]
      exact ih col
    · simp only [collectReassigns, if_neg hd]
      rw [ih, decksId_scratch]

theorem collectReassigns_decks_ext (preserve : Nat) (l : List Deck) (col : Col) :
    ∃ ext, (collectReassigns preserve l col).1.decks = col.decks ++ ext := by
  induction l generalizing col with
  | nil => exact ⟨[], by simp [collectReassigns]⟩
  | cons d rest ih =>
    by_cases hd : deckDepth d.name ≤ preserve
    · simpa only [collectReassigns, if_pos hd] using ih col
    · simp only [collectReassigns, if_neg hd]
      obtain ⟨e1, he1⟩ := decksId_decks_ext col (truncatePath d.name preserve)
      obtain ⟨e2, he2⟩ := ih (decksId col (truncatePath d.name preserve)).2
      exact ⟨e1 ++ e2, by rw [he2, he1, List.append_assoc]⟩

theorem collectReassigns_wf {col : Col} (hwf : WF col) (preserve : Nat) (l : List Deck) :
    WF (collectReassigns preserve l col).1 := by
  induction l generalizing col with
  | nil => exact hwf
  | cons d rest ih =>
    by_cases hd : deckDepth d.name ≤ preserve
    · simpa only [collectReassigns, if_pos hd] using ih hwf
    · simp only [collectReassigns, if_neg hd]
      exact ih (decksId_wf hwf (truncatePath d.name preserve))

theorem collectReassigns_find_stable {col : Col} {n : String} {i : Nat}
    (h : findDeckIdByName col.decks n = some i) (preserve : Nat) (l : List Deck) :
    findDeckIdByName (collectReassigns preserve l col).1.decks n = some i := by
  obtain ⟨ext, hext⟩ := collectReassigns_decks_ext preserve l col
  rw [hext]
  exact findDeckIdByName_append_of_some h ext

theorem collectReassigns_key_mem {preserve : Nat} {l : List Deck} {col : Col} {cid t : Nat}
    (h : (cid, t) ∈ (collectReassigns preserve l col).2) :
    ∃ e ∈ l, preserve < deckDepth e.name ∧ ∃ c ∈ col.cards, c.id = cid ∧ c.did = e.id := by
  induction l generalizing col with
  | nil => simp [collectReassigns] at h
  | cons d rest ih =>
    by_cases hd : deckDepth d.name ≤ preserve
    · rw [collectReassigns, if_pos hd] at h
      obtain ⟨e, he, hdeep, hc⟩ := ih h
      exact ⟨e, List.mem_cons_of_mem d he, hdeep, hc⟩
    · rw [collectReassigns, if_neg hd] at h
      rcases List.mem_append.mp h with h | h
      · obtain ⟨cid', hcid', heq⟩ := List.mem_map.mp h
        have h1 : cid' = cid := congrArg Prod.fst heq
        subst h1
        have := mem_cardIdsInDeck.mp hcid'
        rw [decksId_cards] at this
        exact ⟨d, List.mem_cons_self d rest, lt_of_not_le hd, this⟩
      · obtain ⟨e, he, hdeep, c, hc, hcid, hdid⟩ := ih h
        rw [decksId_cards] at hc
        exact ⟨e, List.mem_cons_of_mem d he, hdeep, c, hc, hcid, hdid⟩

theorem collectReassigns_pair_exists (preserve : Nat) (l : List Deck) (col : Col)
    (d : Deck) (hd : d ∈ l) (hdeep : preserve < deckDepth d.name)
    (c : Card) (hc : c ∈ col.cards) (hdid : c.did = d.id) :
    ∃ t, (c.id, t) ∈ (collectReassigns preserve l col).2 ∧
      findDeckIdByName (collectReassigns preserve l col).1.decks
        (truncatePath d.name preserve) = some t := by
  induction l generalizing col with
  | nil => cases hd
  | cons e rest ih =>
    rcases List.mem_cons.mp hd with rfl | hmem
    · rw [collectReassigns, if_neg (not_le.mpr hdeep)]
      refine ⟨(decksId col (truncatePath d.name preserve)).1, ?_, ?_⟩
      · apply List.mem_append_left
        apply List.mem_map_of_mem
        apply mem_cardIdsInDeck.mpr
        rw [decksId_cards]
        exact ⟨c, hc, rfl, hdid⟩
      · exact collectReassigns_find_stable (decksId_find_self col _) preserve rest
    · by_cases he : deckDepth e.name ≤ preserve
      · rw [collectReassigns, if_pos he]
        exact ih col hmem hc
      · rw [collectReassigns, if_neg he]
        obtain ⟨t, hpair, hfind⟩ :=
          ih (decksId col (truncatePath e.name preserve)).2 hmem
            (by rw [decksId_cards]; exact hc)
        exact ⟨t, List.mem_append_right _ hpair, hfind⟩

theorem cardIdsInDeck_nodup {col : Col} (hcards : (col.cards.map (fun c => c.id)).Nodup)
    (did : Nat) : (cardIdsInDeck col did).Nodup := by
  unfold cardIdsInDeck
  exact ((List.filter_sublist col.cards).map (fun c => c.id)).nodup hcards

theorem collectReassigns_keys_nodup {preserve : Nat} {l : List Deck} {col : Col}
    (hcards : (col.cards.map (fun c => c.id)).Nodup)
    (hl : (l.map (fun d => d.id)).Nodup) :
    ((collectReassigns preserve l col).2.map Prod.fst).Nodup := by
  induction l generalizing col with
  | nil => simp [collectReassigns]
  | cons d rest ih =>
    rw [List.map_cons, List.nodup_cons] at hl
    by_cases hd : deckDepth d.name ≤ preserve
    · rw [collectReassigns, if_pos hd]
      exact ih hcards hl.2
    · rw [collectReassigns, if_neg hd]
      have hcards2 : ((decksId col (truncatePath d.name preserve)).2.cards.map
          (fun c => c.id)).Nodup := by rw [decksId_cards]; exact hcards
      simp only [List.map_append, List.map_map]
      rw [List.nodup_append]
      refine ⟨?_, ih hcards2 hl.2, ?_⟩
      · have hfun : (Prod.fst ∘ fun cid : Nat =>
            ((cid, (decksId col (truncatePath d.name preserve)).1) : Nat × Nat)) = id := rfl
        rw [hfun, List.map_id]
        exact cardIdsInDeck_nodup hcards2 d.id
      · intro cid hcid hcid'
        simp only [List.mem_map, Function.comp] at hcid
        obtain ⟨cid0, hcid0, rfl⟩ := hcid
        have hdmem := mem_cardIdsInDeck.mp hcid0
        rw [decksId_cards] at hdmem
        obtain ⟨c, hc, hcideq, hcdid⟩ := hdmem
        obtain ⟨t', ht'⟩ : ∃ t', (cid0, t') ∈ (collectReassigns preserve rest
            (decksId col (truncatePath d.name preserve)).2).2 := by
          obtain ⟨p, hp, hpeq⟩ := List.mem_map.mp hcid'
          exact ⟨p.2, by rw [show p = (cid0, p.2) from Prod.ext hpeq rfl] at hp; exact hp⟩
        obtain ⟨e, he, _, c', hc', hc'id, hc'did⟩ := collectReassigns_key_mem ht'
        rw [decksId_cards] at hc'
        have hcc : c = c' :=
          List.inj_on_of_nodup_map hcards hc hc' (by rw [hcideq, hc'id])
        apply hl.1
        rw [List.mem_map]
        exact ⟨e, he, by rw [← hc'did, ← hcc, hcdid]⟩

theorem pairs_key_unique {pairs : List (Nat × Nat)} {cid t1 t2 : Nat}
    (hnodup : (pairs.map Prod.fst).Nodup)
    (h1 : (cid, t1) ∈ pairs) (h2 : (cid, t2) ∈ pairs) : t1 = t2 := by
  have := List.inj_on_of_nodup_map hnodup h1 h2 rfl
  exact congrArg Prod.snd this

/-! ### Lemmas about the grouping dict -/

/-- `cid` is filed under key `t` somewhere in the group list. -/
def memGroup (gs : List (Nat × List Nat)) (t cid : Nat) : Prop :=
  ∃ g ∈ gs, g.1 = t ∧ cid ∈ g.2

theorem memGroup_insertGroup {gs : List (Nat × List Nat)} {t cid t' cid' : Nat} :
    memGroup (insertGroup gs t cid) t' cid' ↔
      memGroup gs t' cid' ∨ (t' = t ∧ cid' = cid) := by
  unfold insertGroup memGroup
  by_cases hex : gs.any (fun g => g.1 == t)
  · rw [if_pos hex]
    constructor
    · rintro ⟨g, hg, hkey, hmem⟩
      obtain ⟨g0, hg0, hg0eq⟩ := List.mem_map.mp hg
      by_cases hkey0 : g0.1 = t
      · rw [if_pos (by simpa using hkey0)] at hg0eq
        subst hg0eq
        simp only at hkey hmem
        rcases List.mem_append.mp hmem with hmem | hmem
        · exact Or.inl ⟨g0, hg0, hkey0.symm ▸ hkey, hmem⟩
        · simp at hmem
          exact Or.inr ⟨hkey ▸ hkey0.symm ▸ rfl, hmem⟩
      · rw [if_neg (by simpa using hkey0)] at hg0eq
        subst hg0eq
        exact Or.inl ⟨g0, hg0, hkey, hmem⟩
    · rintro (⟨g, hg, hkey, hmem⟩ | ⟨rfl, rfl⟩)
      · by_cases hkey0 : g.1 = t
        · refine ⟨(g.1, g.2 ++ [cid]), ?_, hkey, by simp [hmem]⟩
          rw [List.mem_map]
          exact ⟨g, hg, by rw [if_pos (by simpa using hkey0)]⟩
        · refine ⟨g, ?_, hkey, hmem⟩
          rw [List.mem_map]
          exact ⟨g, hg, by rw [if_neg (by simpa using hkey0)]⟩
      · obtain ⟨g, hg, hgt⟩ := List.any_eq_true.mp hex
        refine ⟨(g.1, g.2 ++ [cid']), ?_, by simpa using hgt, by simp⟩
        rw [List.mem_map]
        exact ⟨g, hg, by rw [if_pos hgt]⟩
  · rw [if_neg hex]
    constructor
    · rintro ⟨g, hg, hkey, hmem⟩
      rcases List.mem_append.mp hg with hg | hg
      · exact Or.inl ⟨g, hg, hkey, hmem⟩
      · simp at hg
        subst hg
        simp only at hkey hmem
        simp at hmem
        exact Or.inr ⟨hkey.symm, hmem⟩
    · rintro (⟨g, hg, hkey, hmem⟩ | ⟨rfl, rfl⟩)
      · exact ⟨g, List.mem_append_left _ hg, hkey, hmem⟩
      · exact ⟨(t', [cid']), List.mem_append_right _ (by simp), rfl, by simp⟩

theorem memGroup_foldl (pairs : List (Nat × Nat)) (gs : List (Nat × List Nat)) (t cid : Nat) :
    memGroup (pairs.foldl (fun gs p => insertGroup gs p.2 p.1) gs) t cid ↔
      memGroup gs t cid ∨ (cid, t) ∈ pairs := by
  induction pairs generalizing gs with
  | nil => simp
  | cons p rest ih =>
    rw [List.foldl_cons, ih, memGroup_insertGroup]
    constructor
    · rintro ((h | ⟨rfl, rfl⟩) | h)
      · exact Or.inl h
      · exact Or.inr (by simp)
      · exact Or.inr (List.mem_cons_of_mem p h)
    · rintro (h | h)
      · exact Or.inl (Or.inl h)
      · rcases List.mem_cons.mp h with heq | h
        · exact Or.inl (Or.inr ⟨congrArg Prod.snd heq, congrArg Prod.fst heq⟩)
        · exact Or.inr h

theorem memGroup_groupByTarget {pairs : List (Nat × Nat)} {t cid : Nat} :
    memGroup (groupByTarget pairs) t cid ↔ (cid, t) ∈ pairs := by
  rw [groupByTarget, memGroup_foldl]
  simp [memGroup]

/-! ### Lemmas about the batched reassignment -/

/-- The effect of one target group's batched update on a single card. -/
def stepGroup (c : Card) (g : Nat × List Nat) : Card :=
  if c.id ∈ g.2 then { c with did := g.1 } else c

/-- The effect of the whole reassignment loop on a single card. -/
def stepAll (gs : List (Nat × List Nat)) (c : Card) : Card :=
  gs.foldl stepGroup c
theorem stepAll_cons (g : Nat × List Nat) (rest : List (Nat × List Nat)) (c : Card) :
    stepAll (g :: rest) c = stepAll rest (stepGroup c g) := rfl

theorem applyGroups_cons (g : Nat × List Nat) (rest : List (Nat × List Nat)) (col : Col) :
    applyGroups col (g :: rest) = applyGroups (applyGroup col g.1 g.2) rest := rfl

theorem applyGroups_cards (gs : List (Nat × List Nat)) (col : Col) :
    (applyGroups col gs).cards = col.cards.map (stepAll gs) := by
  induction gs generalizing col with
  | nil =>
    rw [show stepAll ([] : List (Nat × List Nat)) = id from rfl, List.map_id]
    rfl
  | cons g rest ih =>
    rw [applyGroups_cons, ih, applyGroup, List.map_map]
    rfl

theorem applyGroups_decks (gs : List (Nat × List Nat)) (col : Col) :
    (applyGroups col gs).decks = col.decks := by
  induction gs generalizing col with
  | nil => rfl
  | cons g rest ih => rw [applyGroups_cons]; exact ih (applyGroup col g.1 g.2)

theorem applyGroups_notes (gs : List (Nat × List Nat)) (col : Col) :
    (applyGroups col gs).notes = col.notes := by
  induction gs generalizing col with
  | nil => rfl
  | cons g rest ih => rw [applyGroups_cons]; exact ih (applyGroup col g.1 g.2)

theorem applyGroups_scratch (gs : List (Nat × List Nat)) (col : Col) :
    (applyGroups col gs).scratch = col.scratch := by
  induction gs generalizing col with
  | nil => rfl
  | cons g rest ih => rw [applyGroups_cons]; exact ih (applyGroup col g.1 g.2)

theorem applyGroups_nextDeckId (gs : List (Nat × List Nat)) (col : Col) :
    (applyGroups col gs).nextDeckId = col.nextDeckId := by
  induction gs generalizing col with
  | nil => rfl
  | cons g rest ih => rw [applyGroups_cons]; exact ih (applyGroup col g.1 g.2)

theorem stepGroup_id (c : Card) (g : Nat × List Nat) : (stepGroup c g).id = c.id := by
  unfold stepGroup
  by_cases h : c.id ∈ g.2 <;> simp [h]

theorem stepGroup_nid (c : Card) (g : Nat × List Nat) : (stepGroup c g).nid = c.nid := by
  unfold stepGroup
  by_cases h : c.id ∈ g.2 <;> simp [h]

theorem stepAll_id (gs : List (Nat × List Nat)) (c : Card) : (stepAll gs c).id = c.id := by
  induction gs generalizing c with
  | nil => rfl
  | cons g rest ih => rw [stepAll_cons, ih, stepGroup_id]

theorem stepAll_nid (gs : List (Nat × List Nat)) (c : Card) : (stepAll gs c).nid = c.nid := by
  induction gs generalizing c with
  | nil => rfl
  | cons g rest ih => rw [stepAll_cons, ih, stepGroup_nid]

theorem stepAll_not_mem {gs : List (Nat × List Nat)} {c : Card}
    (h : ∀ g ∈ gs, c.id ∉ g.2) : stepAll gs c = c := by
  induction gs with
  | nil => rfl
  | cons g rest ih =>
    rw [stepAll_cons]
    rw [show stepGroup c g = c from by
      unfold stepGroup; rw [if_neg (h g (List.mem_cons_self g rest))]]
    exact ih (fun g' hg' => h g' (List.mem_cons_of_mem g hg'))

theorem stepAll_target {gs : List (Nat × List Nat)} {c : Card} {t : Nat}
    (hex : ∃ g ∈ gs, c.id ∈ g.2) (hall : ∀ g ∈ gs, c.id ∈ g.2 → g.1 = t) :
    (stepAll gs c).did = t := by
  induction gs generalizing c with
  | nil => obtain ⟨g, hg, _⟩ := hex; cases hg
  | cons g rest ih =>
    rw [stepAll_cons]
    by_cases hmem : c.id ∈ g.2
    · have hgt : g.1 = t := hall g (List.mem_cons_self g rest) hmem
      have hstep : stepGroup c g = { c with did := t } := by
        unfold stepGroup; rw [if_pos hmem, hgt]
      rw [hstep]
      by_cases hrest : ∃ g' ∈ rest, ({ c with did := t } : Card).id ∈ g'.2
      · exact ih hrest (fun g'' hg'' hm => hall g'' (List.mem_cons_of_mem g hg'') hm)
      · push_neg at hrest
        rw [stepAll_not_mem (fun g' hg' => hrest g' hg')]
    · rw [show stepGroup c g = c from by unfold stepGroup; rw [if_neg hmem]]
      obtain ⟨g', hg', hmem'⟩ := hex
      rcases List.mem_cons.mp hg' with rfl | hg'
      · exact absurd hmem' hmem
      · exact ih ⟨g', hg', hmem'⟩
          (fun g'' hg'' hm => hall g'' (List.mem_cons_of_mem g hg'') hm)

/-! ### Lemmas about the removal loop -/

theorem removeLoop_cons_fail {fails : Nat → Bool} {q : Nat × String}
    (h : fails q.1 = true) (rest : List (Nat × String)) (col : Col) (r : List String) :
    removeLoop fails (q :: rest) col r = removeLoop fails rest col r := by
  rw [removeLoop]
  rw [show decksRemove fails col q.1 = Except.error "deck removal failed" from by
    unfold decksRemove; rw [if_pos h]]

theorem removeLoop_cons_ok {fails : Nat → Bool} {q : Nat × String}
    (h : fails q.1 = false) (rest : List (Nat × String)) (col : Col) (r : List String) :
    removeLoop fails (q :: rest) col r =
      removeLoop fails rest
        { col with decks := col.decks.filter (fun d => !(d.id == q.1)) } (r ++ [q.2]) := by
  rw [removeLoop]
  rw [show decksRemove fails col q.1 = Except.ok
      { col with decks := col.decks.filter (fun d => !(d.id == q.1)) } from by
    unfold decksRemove; rw [if_neg (by simp [h])]]

theorem removeLoop_cards (fails : Nat → Bool) (l : List (Nat × String)) (col : Col)
    (r : List String) : (removeLoop fails l col r).1.cards = col.cards := by
  induction l generalizing col r with
  | nil => rfl
  | cons q rest ih =>
    by_cases hq : fails q.1
    · rw [removeLoop_cons_fail hq]
      exact ih col r
    · rw [removeLoop_cons_ok (Bool.not_eq_true _ ▸ hq)]
      exact ih _ _

theorem removeLoop_notes (fails : Nat → Bool) (l : List (Nat × String)) (col : Col)
    (r : List String) : (removeLoop fails l col r).1.notes = col.notes := by
  induction l generalizing col r with
  | nil => rfl
  | cons q rest ih =>
    by_cases hq : fails q.1
    · rw [removeLoop_cons_fail hq]
      exact ih col r
    · rw [removeLoop_cons_ok (Bool.not_eq_true _ ▸ hq)]
      exact ih _ _

theorem removeLoop_scratch (fails : Nat → Bool) (l : List (Nat × String)) (col : Col)
    (r : List String) : (removeLoop fails l col r).1.scratch = col.scratch := by
  induction l generalizing col r with
  | nil => rfl
  | cons q rest ih =>
    by_cases hq : fails q.1
    · rw [removeLoop_cons_fail hq]
      exact ih col r
    · rw [removeLoop_cons_ok (Bool.not_eq_true _ ▸ hq)]
      exact ih _ _

theorem removeLoop_decks_subset {fails : Nat → Bool} {l : List (Nat × String)} {col : Col}
    {r : List String} {d : Deck} (h : d ∈ (removeLoop fails l col r).1.decks) :
    d ∈ col.decks := by
  induction l generalizing col r with
  | nil => exact h
  | cons q rest ih =>
    by_cases hq : fails q.1
    · rw [removeLoop_cons_fail hq] at h
      exact ih h
    · rw [removeLoop_cons_ok (Bool.not_eq_true _ ▸ hq)] at h
      exact (List.mem_filter.mp (ih h)).1

theorem removeLoop_removed_reason {fails : Nat → Bool} {l : List (Nat × String)} {col : Col}
    {r : List String} {d : Deck} (hd : d ∈ col.decks)
    (hgone : d ∉ (removeLoop fails l col r).1.decks) :
    ∃ q ∈ l, fails q.1 = false ∧ q.1 = d.id := by
  induction l generalizing col r with
  | nil => exact absurd hd hgone
  | cons q rest ih =>
    by_cases hq : fails q.1
    · rw [removeLoop_cons_fail hq] at hgone
      obtain ⟨q', hq', hf, hid⟩ := ih hd hgone
      exact ⟨q', List.mem_cons_of_mem q hq', hf, hid⟩
    · rw [removeLoop_cons_ok (Bool.not_eq_true _ ▸ hq)] at hgone
      by_cases hid : q.1 = d.id
      · exact ⟨q, List.mem_cons_self q rest, Bool.not_eq_true _ ▸ hq, hid⟩
      · have hd2 : d ∈ col.decks.filter (fun d => !(d.id == q.1)) := by
          rw [List.mem_filter]
          refine ⟨hd, ?_⟩
          simp only [Bool.not_eq_true', beq_eq_false_iff_ne, ne_eq]
          exact fun h => hid h.symm
        obtain ⟨q', hq', hf, hid'⟩ := ih hd2 hgone
        exact ⟨q', List.mem_cons_of_mem q hq', hf, hid'⟩

theorem removeLoop_keeps {fails : Nat → Bool} {l : List (Nat × String)} {col : Col}
    {r : List String} {d : Deck} (hd : d ∈ col.decks)
    (hsafe : ∀ q ∈ l, q.1 ≠ d.id) : d ∈ (removeLoop fails l col r).1.decks := by
  induction l generalizing col r with
  | nil => exact hd
  | cons q rest ih =>
    by_cases hq : fails q.1
    · rw [removeLoop_cons_fail hq]
      exact ih hd (fun q' hq' => hsafe q' (List.mem_cons_of_mem q hq'))
    · rw [removeLoop_cons_ok (Bool.not_eq_true _ ▸ hq)]
      refine ih ?_ (fun q' hq' => hsafe q' (List.mem_cons_of_mem q hq'))
      rw [List.mem_filter]
      refine ⟨hd, ?_⟩
      simp only [Bool.not_eq_true', beq_eq_false_iff_ne, ne_eq]
      exact fun h => hsafe q (List.mem_cons_self q rest) h.symm

theorem removeLoop_removed_names (fails : Nat → Bool) (l : List (Nat × String)) (col : Col)
    (r : List String) :
    (removeLoop fails l col r).2 = r ++ (l.filter (fun q => !fails q.1)).map (fun q => q.2) := by
  induction l generalizing col r with
  | nil => simp [removeLoop]
  | cons q rest ih =>
    by_cases hq : fails q.1
    · rw [removeLoop_cons_fail hq, ih, List.filter_cons, if_neg (by simp [hq])]
    · rw [removeLoop_cons_ok (Bool.not_eq_true _ ▸ hq), ih, List.filter_cons,
        if_pos (by simp [hq])]
      simp

/-! ### The pipeline states of one flattening run -/

theorem flattenPrep_cards (root : String) (col : Col) :
    (flattenPrep root col).cards = col.cards := decksId_cards col root

theorem flattenPrep_wf {col : Col} (hwf : WF col) (root : String) :
    WF (flattenPrep root col) := decksId_wf hwf root

theorem flattenPairs_fst_cards (root : String) (preserve : Nat) (col : Col) :
    (flattenPairs root preserve col).1.cards = col.cards := by
  rw [flattenPairs, collectReassigns_cards, flattenPrep_cards]

theorem flattenPairs_fst_wf {col : Col} (hwf : WF col) (root : String) (preserve : Nat) :
    WF (flattenPairs root preserve col).1 :=
  collectReassigns_wf (flattenPrep_wf hwf root) preserve _

theorem reassignedCol_decks (root : String) (preserve : Nat) (col : Col) :
    (reassignedCol root preserve col).decks = (flattenPairs root preserve col).1.decks := by
  rw [reassignedCol, applyGroups_decks]

theorem reassignedCol_cards (root : String) (preserve : Nat) (col : Col) :
    (reassignedCol root preserve col).cards =
      col.cards.map (stepAll (groupByTarget (flattenPairs root preserve col).2)) := by
  rw [reassignedCol, applyGroups_cards, flattenPairs_fst_cards]

theorem reassignedCol_card_ids (root : String) (preserve : Nat) (col : Col) :
    (reassignedCol root preserve col).cards.map (fun c => c.id) =
      col.cards.map (fun c => c.id) := by
  rw [reassignedCol_cards, List.map_map]
  exact List.map_congr_left (fun c _ => stepAll_id _ c)

theorem reassignedCol_wf {col : Col} (hwf : WF col) (root : String) (preserve : Nat) :
    WF (reassignedCol root preserve col) := by
  obtain ⟨hid, hname, hcid, hfresh⟩ := flattenPairs_fst_wf hwf root preserve
  refine ⟨?_, ?_, ?_, ?_⟩
  · rw [reassignedCol_decks]; exact hid
  · rw [reassignedCol_decks]; exact hname
  · rw [reassignedCol_card_ids]
    rw [flattenPairs_fst_cards] at hcid
    exact hcid
  · intro d hd
    rw [reassignedCol_decks] at hd
    rw [reassignedCol, applyGroups_nextDeckId]
    exact hfresh d hd

/-- The id-keys pending reassignment are pairwise distinct in any run that
starts from a well-formed collection. -/
theorem flattenPairs_keys_nodup {col : Col} (hwf : WF col) (root : String) (preserve : Nat) :
    ((flattenPairs root preserve col).2.map Prod.fst).Nodup := by
  obtain ⟨hid, _, hcid, _⟩ := flattenPrep_wf hwf root
  apply collectReassigns_keys_nodup hcid
  exact (((List.filter_sublist (flattenPrep root col).decks)).map (fun d => d.id)).nodup hid

theorem reassign_eq_of_no_subdecks {root : String} {preserve : Nat} {fails : Nat → Bool}
    {col : Col} (he : (subdecksOf root (flattenPrep root col)).isEmpty = true) :
    reassign_subdeck_cards_to_head root preserve fails col =
      Except.ok (flattenPrep root col, OpChanges.mk) := by
  rw [reassign_subdeck_cards_to_head, if_pos he]

theorem reassign_eq_of_subdecks {root : String} {preserve : Nat} {fails : Nat → Bool}
    {col : Col} (hne : ¬((subdecksOf root (flattenPrep root col)).isEmpty = true)) :
    reassign_subdeck_cards_to_head root preserve fails col =
      Except.ok
        ({ (removeLoop fails (flattenCandidates root preserve col)
              (reassignedCol root preserve col) []).1 with
            scratch := some preservedLevelMsgs },
          OpChanges.mk) := by
  rw [reassign_subdeck_cards_to_head, if_neg hne]

theorem scratch_update_cards (x : Col) (v : Option (List String)) :
    ({ x with scratch := v } : Col).cards = x.cards := rfl

theorem scratch_update_decks (x : Col) (v : Option (List String)) :
    ({ x with scratch := v } : Col).decks = x.decks := rfl

theorem scratch_update_notes (x : Col) (v : Option (List String)) :
    ({ x with scratch := v } : Col).notes = x.notes := rfl

theorem findDeckIdByName_some {decks : List Deck} {n : String} {i : Nat}
    (h : findDeckIdByName decks n = some i) :
    ∃ dk ∈ decks, dk.name = n ∧ dk.id = i := by
  unfold findDeckIdByName at h
  cases hf : List.find? (fun d => d.name == n) decks with
  | none => rw [hf] at h; simp at h
  | some dk =>
    rw [hf] at h
    simp only [Option.map_some', Option.some.injEq] at h
    exact ⟨dk, List.mem_of_find?_eq_some hf, by simpa using List.find?_some hf, h⟩

theorem countCards_pos {col : Col} {c : Card} (hc : c ∈ col.cards) {t : Nat}
    (h : c.did = t) : countCards col t ≠ 0 := by
  unfold countCards
  intro hlen
  rw [List.length_eq_zero] at hlen
  have : c ∈ col.cards.filter (fun c => c.did == t) :=
    List.mem_filter.mpr ⟨hc, by simp [h]⟩
  rw [hlen] at this
  cases this

theorem mem_flattenCandidates {root : String} {preserve : Nat} {col : Col} {q : Nat × String}
    (hq : q ∈ flattenCandidates root preserve col) :
    ∃ e ∈ (reassignedCol root preserve col).decks,
      e.id = q.1 ∧ e.name = q.2 ∧ pyStartsWith e.name (root ++ "::") = true ∧
      preserve < deckDepth e.name ∧ countCards (reassignedCol root preserve col) e.id = 0 := by
  unfold flattenCandidates emptyFlattenedSubdecks at hq
  obtain ⟨e, he, heq⟩ := List.mem_map.mp hq
  rw [List.mem_filter] at he
  obtain ⟨hmem, hcond⟩ := he
  simp only [Bool.and_eq_true, decide_eq_true_eq, beq_iff_eq] at hcond
  exact ⟨e, hmem, congrArg Prod.fst heq, congrArg Prod.snd heq, hcond.1.1, hcond.1.2, hcond.2⟩

/-- Claim C1: for every root path and preserve level, after
`flatten(root, levels)` completes, every card originally homed in a strict
descendant deck of depth greater than `levels` resides in the deck whose
path is the card's original deck path truncated to its first `levels + 1`
segments joined by the separator. -/
theorem flatten_moves_deep_cards_to_truncated_path
    (root : String) (preserve : Nat) (fails : Nat → Bool) (col : Col) (hwf : WF col)
    (c : Card) (d : Deck) (hc : c ∈ col.cards) (hd : d ∈ col.decks) (hdid : c.did = d.id)
    (hdesc : pyStartsWith d.name (root ++ "::") = true)
    (hdeep : preserve < deckDepth d.name) :
    ∃ col', reassign_subdeck_cards_to_head root preserve fails col =
        Except.ok (col', OpChanges.mk) ∧
      ∃ t ∈ col'.decks, t.name = truncatePath d.name preserve ∧
        ∃ c' ∈ col'.cards, c'.id = c.id ∧ c'.nid = c.nid ∧ c'.did = t.id := by
  have hd1 : d ∈ (flattenPrep root col).decks := by
    obtain ⟨ext, hext⟩ := decksId_decks_ext col root
    rw [flattenPrep, hext]
    exact List.mem_append_left ext hd
  have hdsub : d ∈ subdecksOf root (flattenPrep root col) :=
    List.mem_filter.mpr ⟨hd1, hdesc⟩
  have hne : ¬((subdecksOf root (flattenPrep root col)).isEmpty = true) := by
    intro habs
    rw [List.isEmpty_iff] at habs
    rw [habs] at hdsub
    cases hdsub
  have hc1 : c ∈ (flattenPrep root col).cards := by rw [flattenPrep_cards]; exact hc
  obtain ⟨t, hpair, hfind⟩ :=
    collectReassigns_pair_exists preserve (subdecksOf root (flattenPrep root col))
      (flattenPrep root col) d hdsub hdeep c hc1 hdid
  have hkeys := flattenPairs_keys_nodup hwf root preserve
  have hpair' : (c.id, t) ∈ (flattenPairs root preserve col).2 := hpair
  have hex : ∃ g ∈ groupByTarget (flattenPairs root preserve col).2, c.id ∈ g.2 := by
    obtain ⟨g, hg, _, hm⟩ := memGroup_groupByTarget.mpr hpair'
    exact ⟨g, hg, hm⟩
  have hall : ∀ g ∈ groupByTarget (flattenPairs root preserve col).2, c.id ∈ g.2 → g.1 = t := by
    intro g hg hm
    have : (c.id, g.1) ∈ (flattenPairs root preserve col).2 :=
      memGroup_groupByTarget.mp ⟨g, hg, rfl, hm⟩
    exact pairs_key_unique hkeys this hpair'
  have hc'mem : stepAll (groupByTarget (flattenPairs root preserve col).2) c ∈
      (reassignedCol root preserve col).cards := by
    rw [reassignedCol_cards]
    exact List.mem_map_of_mem _ hc
  have hc'did : (stepAll (groupByTarget (flattenPairs root preserve col).2) c).did = t :=
    stepAll_target hex hall
  obtain ⟨tDeck, htmem, htname, htid⟩ := findDeckIdByName_some hfind
  have htmemR : tDeck ∈ (reassignedCol root preserve col).decks := by
    rw [reassignedCol_decks]
    exact htmem
  have hsafe : ∀ q ∈ flattenCandidates root preserve col, q.1 ≠ tDeck.id := by
    intro q hq habs
    obtain ⟨e, _, heid, _, _, _, hcount⟩ := mem_flattenCandidates hq
    apply countCards_pos hc'mem (t := e.id) (by rw [hc'did, heid, habs, htid])
    exact hcount
  have hkeep : tDeck ∈ (removeLoop fails (flattenCandidates root preserve col)
      (reassignedCol root preserve col) []).1.decks :=
    removeLoop_keeps htmemR hsafe
  refine ⟨{ (removeLoop fails (flattenCandidates root preserve col)
      (reassignedCol root preserve col) []).1 with scratch := some preservedLevelMsgs },
      reassign_eq_of_subdecks hne, ?_⟩
  refine ⟨tDeck, ?_, htname, ?_⟩
  · rw [scratch_update_decks]
    exact hkeep
  refine ⟨stepAll (groupByTarget (flattenPairs root preserve col).2) c, ?_, ?_, ?_, ?_⟩
  · rw [scratch_update_cards, removeLoop_cards]
    exact hc'mem
  · exact stepAll_id _ c
  · exact stepAll_nid _ c
  · rw [hc'did, htid]

/-- A two-deck collection with one card in the subdeck, used to witness the
flattening theorems on a concrete run. -/
def demoColC1 : Col := ⟨[⟨1, "A"⟩, ⟨2, "A::B"⟩], [⟨10, 100, 2⟩], [], 3, none⟩

/-- Witness for claim C1: the concrete run on `demoColC1` flattens the card
out of `A::B` into the deck named by the truncated path. -/
theorem flatten_moves_deep_cards_to_truncated_path_witness :
    ∃ col', reassign_subdeck_cards_to_head "A" 0 (fun _ => false) demoColC1 =
        Except.ok (col', OpChanges.mk) ∧
      ∃ t ∈ col'.decks, t.name = truncatePath (Deck.mk 2 "A::B").name 0 ∧
        ∃ c' ∈ col'.cards, c'.id = (Card.mk 10 100 2).id ∧
          c'.nid = (Card.mk 10 100 2).nid ∧ c'.did = t.id :=
  flatten_moves_deep_cards_to_truncated_path "A" 0 (fun _ => false) demoColC1 (by decide)
    ⟨10, 100, 2⟩ ⟨2, "A::B"⟩ (by decide) (by decide) rfl (by decide) (by decide)

theorem reassignedCol_of_no_subdecks {root : String} {preserve : Nat} {col : Col}
    (hnil : subdecksOf root (flattenPrep root col) = []) :
    reassignedCol root preserve col = flattenPrep root col := by
  rw [reassignedCol, flattenPairs, hnil]
  rfl

/-- Claim C4: in every flatten invocation, a deck deletion is attempted only
after all card reassignments have been applied, and only for a deck whose
card count, re-queried in the post-reassignment state, is zero — so any
deck present after reassignment but absent from the final state counted
zero cards there, and deletion leaves the reassigned card table intact. -/
theorem deck_removal_only_after_reassignments_and_empty
    (root : String) (preserve : Nat) (fails : Nat → Bool) (col col' : Col) (oc : OpChanges)
    (hrun : reassign_subdeck_cards_to_head root preserve fails col = Except.ok (col', oc))
    (d : Deck) (hd : d ∈ (reassignedCol root preserve col).decks)
    (hgone : d ∉ col'.decks) :
    countCards (reassignedCol root preserve col) d.id = 0 ∧
      col'.cards = (reassignedCol root preserve col).cards := by
  by_cases he : (subdecksOf root (flattenPrep root col)).isEmpty = true
  · rw [reassign_eq_of_no_subdecks he] at hrun
    simp only [Except.ok.injEq, Prod.mk.injEq] at hrun
    obtain ⟨hcol, _⟩ := hrun
    rw [reassignedCol_of_no_subdecks (List.isEmpty_iff.mp he)] at hd
    rw [← hcol] at hgone
    exact absurd hd hgone
  · rw [reassign_eq_of_subdecks he] at hrun
    simp only [Except.ok.injEq, Prod.mk.injEq] at hrun
    obtain ⟨hcol, _⟩ := hrun
    rw [← hcol] at hgone
    rw [scratch_update_decks] at hgone
    obtain ⟨q, hq, _, hqid⟩ := removeLoop_removed_reason hd hgone
    obtain ⟨e, _, heid, _, _, _, hcount⟩ := mem_flattenCandidates hq
    constructor
    · rw [← hqid, ← heid]
      exact hcount
    · rw [← hcol, scratch_update_cards, removeLoop_cards]

/-- Collection and final state used to witness claim C4 concretely. -/
def demoColC4 : Col := ⟨[⟨1, "A"⟩, ⟨2, "A::B"⟩], [⟨10, 100, 2⟩], [], 3, none⟩

/-- The final state of the concrete C4 run. -/
def colC4After : Col := ⟨[⟨1, "A"⟩], [⟨10, 100, 1⟩], [], 3, some []⟩

/-- Witness for claim C4: in the concrete run the removed deck `A::B`
counted zero cards after reassignment, and deletion left the reassigned
card table unchanged. -/
theorem deck_removal_only_after_reassignments_and_empty_witness :
    countCards (reassignedCol "A" 0 demoColC4) (Deck.mk 2 "A::B").id = 0 ∧
      colC4After.cards = (reassignedCol "A" 0 demoColC4).cards :=
  deck_removal_only_after_reassignments_and_empty "A" 0 (fun _ => false) demoColC4
    colC4After OpChanges.mk rfl ⟨2, "A::B"⟩ (by decide) (by decide)

/-- Claim C5: only descendant decks whose depth exceeds `preserve_levels`
are ever considered for deletion; a descendant deck at depth at most
`preserve_levels` is never deleted, even when empty. -/
theorem only_deep_subdecks_are_removal_candidates
    (root : String) (preserve : Nat) (fails : Nat → Bool) (col col' : Col) (oc : OpChanges)
    (hwf : WF col)
    (hrun : reassign_subdeck_cards_to_head root preserve fails col = Except.ok (col', oc)) :
    (∀ q ∈ flattenCandidates root preserve col,
        ∃ e ∈ (reassignedCol root preserve col).decks,
          e.id = q.1 ∧ pyStartsWith e.name (root ++ "::") = true ∧
            preserve < deckDepth e.name) ∧
      (∀ d ∈ (reassignedCol root preserve col).decks,
        deckDepth d.name ≤ preserve → d ∈ col'.decks) := by
  constructor
  · intro q hq
    obtain ⟨e, hmem, heid, _, hstart, hdeep, _⟩ := mem_flattenCandidates hq
    exact ⟨e, hmem, heid, hstart, hdeep⟩
  · intro d hd hdepth
    by_cases he : (subdecksOf root (flattenPrep root col)).isEmpty = true
    · rw [reassign_eq_of_no_subdecks he] at hrun
      simp only [Except.ok.injEq, Prod.mk.injEq] at hrun
      obtain ⟨hcol, _⟩ := hrun
      rw [reassignedCol_of_no_subdecks (List.isEmpty_iff.mp he)] at hd
      rw [← hcol]
      exact hd
    · rw [reassign_eq_of_subdecks he] at hrun
      simp only [Except.ok.injEq, Prod.mk.injEq] at hrun
      obtain ⟨hcol, _⟩ := hrun
      rw [← hcol, scratch_update_decks]
      refine removeLoop_keeps hd ?_
      intro q hq habs
      obtain ⟨e, hmem, heid, _, _, hdeep, _⟩ := mem_flattenCandidates hq
      obtain ⟨hidsR, _, _, _⟩ := reassignedCol_wf hwf root preserve
      have : e = d :=
        List.inj_on_of_nodup_map hidsR hmem hd (by rw [heid, habs])
      rw [this] at hdeep
      exact absurd hdepth (not_le.mpr hdeep)

/-- Collection used to witness claim C5: `A::B` sits at the preserve depth,
`A::B::C` below it. -/
def demoColC5 : Col :=
  ⟨[⟨1, "A"⟩, ⟨2, "A::B"⟩, ⟨3, "A::B::C"⟩], [⟨10, 100, 3⟩], [], 4, none⟩

/-- The final state of the concrete C5 run. -/
def colC5After : Col := ⟨[⟨1, "A"⟩, ⟨2, "A::B"⟩], [⟨10, 100, 2⟩], [], 4, some []⟩

/-- Witness for claim C5: in the concrete run with `preserve_levels = 1`,
the depth-1 subdeck `A::B` survives the removal pass even though the run
deleted its emptied child. -/
theorem only_deep_subdecks_are_removal_candidates_witness :
    (Deck.mk 2 "A::B") ∈ colC5After.decks :=
  (only_deep_subdecks_are_removal_candidates "A" 1 (fun _ => false) demoColC5
      colC5After OpChanges.mk (by decide) rfl).2 ⟨2, "A::B"⟩ (by decide) (by decide)

/-- A nested root with one deeper subdeck holding one card, exercising the
depth computation against a multi-segment root path. -/
def demoColC2 : Col := ⟨[⟨1, "A::B"⟩, ⟨2, "A::B::C"⟩], [⟨10, 100, 2⟩], [], 3, none⟩

/-- Claim C2 (failing run): with root `A::B` and `preserve_levels = 1`, the
deck `A::B::C` sits at depth 1 relative to the selected root — inside the
preserved zone — yet the run reassigns its card (into `A::B`), because the
code compares the absolute segment depth of the full path (here 2 > 1)
rather than the depth relative to the root. -/
theorem flatten_moves_card_within_relative_preserve_zone :
    deckDepth "A::B::C" - deckDepth "A::B" ≤ 1 ∧
      reassign_subdeck_cards_to_head "A::B" 1 (fun _ => false) demoColC2 =
        Except.ok (⟨[⟨1, "A::B"⟩, ⟨3, "A"⟩], [⟨10, 100, 1⟩], [], 4, some []⟩, OpChanges.mk) :=
  ⟨by decide, rfl⟩

/-- Sibling decks sharing a string prefix without a `::` boundary, with the
only card and note living in the non-descendant sibling. -/
def demoColC3 : Col := ⟨[⟨1, "Japan"⟩, ⟨2, "Japanese"⟩], [⟨10, 100, 2⟩], [⟨100, ∅⟩], 3, none⟩

/-- Claim C3 (failing run): the tag pass resolves its deck scope with a bare
prefix test, so the deck `Japanese` (id 2) is swept into the scope of root
`Japan` and its note gets tagged, although `Japanese` is not a descendant
of `Japan` under the separator-boundary test. -/
theorem tag_scope_includes_non_descendant_sibling :
    tagScopeDeckIds demoColC3 "Japan" = [1, 2] ∧
      is_descendant "Japanese" "Japan" = false ∧
      collect_note_tag_updates demoColC3 "Japan" = [(100, {"Japanese"})] :=
  ⟨rfl, by decide, by decide⟩

/-- The same nested-root collection as `demoColC2`, run with
`preserve_levels = 0`. -/
def demoColC6 : Col := ⟨[⟨1, "A::B"⟩, ⟨2, "A::B::C"⟩], [⟨10, 100, 2⟩], [], 3, none⟩

/-- Claim C6 (failing run): flattening the nested root `A::B` with
`preserve_levels = 0` sends the card of `A::B::C` to a freshly created
top-level deck `A` (id 3), not to the root deck `A::B` (id 1): truncation
keeps only the first path segment of the full path. -/
theorem flatten_zero_sends_cards_above_nested_root :
    reassign_subdeck_cards_to_head "A::B" 0 (fun _ => false) demoColC6 =
        Except.ok (⟨[⟨1, "A::B"⟩, ⟨3, "A"⟩], [⟨10, 100, 3⟩], [], 4, some []⟩, OpChanges.mk) ∧
      findDeckIdByName [⟨1, "A::B"⟩, ⟨3, "A"⟩] "A::B" = some 1 ∧
      findDeckIdByName [⟨1, "A::B"⟩, ⟨3, "A"⟩] "A" = some 3 :=
  ⟨rfl, rfl, rfl⟩

/-- Collection used for the claim C9 runs. -/
def demoColC9 : Col := ⟨[⟨1, "A"⟩, ⟨2, "A::B"⟩], [⟨10, 100, 2⟩], [], 3, none⟩

/-- Claim C9 (counterexample): the flattening op does not keep its auxiliary
messages out of the shared store — starting from a collection without the
transient attribute, the op returns only the payload-free `OpChanges` and
leaves `_preserved_level_msgs` written onto the collection object. -/
theorem flatten_writes_scratch_onto_store :
    demoColC9.scratch = none ∧
      reassign_subdeck_cards_to_head "A" 0 (fun _ => false) demoColC9 =
        Except.ok (⟨[⟨1, "A"⟩], [⟨10, 100, 1⟩], [], 3, some []⟩, OpChanges.mk) ∧
      (⟨[⟨1, "A"⟩], [⟨10, 100, 1⟩], [], 3, some []⟩ : Col).scratch ≠ none :=
  ⟨rfl, rfl, by decide⟩

/-- Claim C9 (amended): whenever the selected root has subdecks, the
flattening op hands the success handler only the payload-free `OpChanges`
value and passes its auxiliary messages by setting the transient
`_preserved_level_msgs` attribute on the shared collection object. -/
theorem flatten_messages_via_store_scratch
    (root : String) (preserve : Nat) (fails : Nat → Bool) (col : Col)
    (hne : ¬((subdecksOf root (flattenPrep root col)).isEmpty = true)) :
    ∃ col', reassign_subdeck_cards_to_head root preserve fails col =
        Except.ok (col', OpChanges.mk) ∧ col'.scratch = some preservedLevelMsgs :=
  ⟨_, reassign_eq_of_subdecks hne, rfl⟩

/-- Witness for the amended claim C9 on a concrete run. -/
theorem flatten_messages_via_store_scratch_witness :
    ∃ col', reassign_subdeck_cards_to_head "A" 0 (fun _ => false) demoColC9 =
        Except.ok (col', OpChanges.mk) ∧ col'.scratch = some preservedLevelMsgs :=
  flatten_messages_via_store_scratch "A" 0 (fun _ => false) demoColC9 (by decide)

/-- Claim C8: a failure while deleting one empty deck is recovered locally —
the op still returns success, the recorded deletions are exactly the
non-failing candidates (each candidate is attempted independently of
earlier failures), and every deck that disappears corresponds to a
candidate whose removal did not fail. -/
theorem deletion_failures_skipped_rest_attempted
    (root : String) (preserve : Nat) (fails : Nat → Bool) (col : Col)
    (hne : ¬((subdecksOf root (flattenPrep root col)).isEmpty = true)) :
    ∃ col', reassign_subdeck_cards_to_head root preserve fails col =
        Except.ok (col', OpChanges.mk) ∧
      (removeLoop fails (flattenCandidates root preserve col)
          (reassignedCol root preserve col) []).2 =
        ((flattenCandidates root preserve col).filter (fun q => !fails q.1)).map
          (fun q => q.2) ∧
      ∀ d ∈ (reassignedCol root preserve col).decks, d ∉ col'.decks →
        ∃ q ∈ flattenCandidates root preserve col, fails q.1 = false ∧ q.1 = d.id := by
  refine ⟨_, reassign_eq_of_subdecks hne, ?_, ?_⟩
  · rw [removeLoop_removed_names]
    rfl
  · intro d hd hgone
    rw [scratch_update_decks] at hgone
    exact removeLoop_removed_reason hd hgone

/-- Collection whose flattening produces two deletion candidates, used to
witness claim C8 with an oracle that fails on the first candidate. -/
def demoColC8 : Col :=
  ⟨[⟨1, "A"⟩, ⟨2, "A::B"⟩, ⟨3, "A::C"⟩], [⟨10, 100, 2⟩, ⟨11, 101, 3⟩], [], 4, none⟩

/-- Witness for claim C8: with a removal oracle failing on deck 2, the run
still succeeds and still deletes deck 3. -/
theorem deletion_failures_skipped_rest_attempted_witness :
    ∃ col', reassign_subdeck_cards_to_head "A" 0 (fun i => i == 2) demoColC8 =
        Except.ok (col', OpChanges.mk) ∧
      (removeLoop (fun i => i == 2) (flattenCandidates "A" 0 demoColC8)
          (reassignedCol "A" 0 demoColC8) []).2 =
        ((flattenCandidates "A" 0 demoColC8).filter (fun q => !(q.1 == 2))).map
          (fun q => q.2) ∧
      ∀ d ∈ (reassignedCol "A" 0 demoColC8).decks, d ∉ col'.decks →
        ∃ q ∈ flattenCandidates "A" 0 demoColC8, (q.1 == 2) = false ∧ q.1 = d.id :=
  deletion_failures_skipped_rest_attempted "A" 0 (fun i => i == 2) demoColC8 (by decide)

/-! ### Idempotence of the tag application -/

/-- All tags the update list files under a given note id, as one set. -/
def tagsFor (u : List (Nat × Finset String)) (nid : Nat) : Finset String :=
  (u.filter (fun p => p.1 == nid)).foldl (fun s p => s ∪ p.2) ∅

theorem foldl_union_init (l : List (Nat × Finset String)) (s : Finset String) :
    l.foldl (fun s p => s ∪ p.2) s = s ∪ l.foldl (fun s p => s ∪ p.2) ∅ := by
  induction l generalizing s with
  | nil => simp
  | cons p rest ih =>
    rw [List.foldl_cons, ih, List.foldl_cons, ih (∅ ∪ p.2), Finset.empty_union,
      Finset.union_assoc]

theorem tagsFor_cons_eq {p : Nat × Finset String} {rest : List (Nat × Finset String)}
    {nid : Nat} (h : p.1 = nid) : tagsFor (p :: rest) nid = p.2 ∪ tagsFor rest nid := by
  unfold tagsFor
  rw [List.filter_cons, if_pos (by simp [h]), List.foldl_cons, foldl_union_init,
    Finset.empty_union]

theorem tagsFor_cons_ne {p : Nat × Finset String} {rest : List (Nat × Finset String)}
    {nid : Nat} (h : ¬p.1 = nid) : tagsFor (p :: rest) nid = tagsFor rest nid := by
  unfold tagsFor
  rw [List.filter_cons, if_neg (by simp [h])]

theorem apply_tags_cons (p : Nat × Finset String) (rest : List (Nat × Finset String))
    (col : Col) : apply_tags_to_notes col (p :: rest) =
      apply_tags_to_notes (updateNoteTags col p.1 p.2) rest := rfl

theorem apply_tags_decks (col : Col) (u : List (Nat × Finset String)) :
    (apply_tags_to_notes col u).decks = col.decks := by
  induction u generalizing col with
  | nil => rfl
  | cons p rest ih => rw [apply_tags_cons]; exact ih (updateNoteTags col p.1 p.2)

theorem apply_tags_cards (col : Col) (u : List (Nat × Finset String)) :
    (apply_tags_to_notes col u).cards = col.cards := by
  induction u generalizing col with
  | nil => rfl
  | cons p rest ih => rw [apply_tags_cons]; exact ih (updateNoteTags col p.1 p.2)

theorem apply_tags_nextDeckId (col : Col) (u : List (Nat × Finset String)) :
    (apply_tags_to_notes col u).nextDeckId = col.nextDeckId := by
  induction u generalizing col with
  | nil => rfl
  | cons p rest ih => rw [apply_tags_cons]; exact ih (updateNoteTags col p.1 p.2)

theorem apply_tags_scratch (col : Col) (u : List (Nat × Finset String)) :
    (apply_tags_to_notes col u).scratch = col.scratch := by
  induction u generalizing col with
  | nil => rfl
  | cons p rest ih => rw [apply_tags_cons]; exact ih (updateNoteTags col p.1 p.2)

theorem apply_tags_notes (col : Col) (u : List (Nat × Finset String)) :
    (apply_tags_to_notes col u).notes =
      col.notes.map (fun n => { n with tags := n.tags ∪ tagsFor u n.id }) := by
  induction u generalizing col with
  | nil =>
    have hpt : ∀ n ∈ col.notes, ({ n with tags := n.tags ∪ tagsFor [] n.id } : Note) = n := by
      intro n _
      rw [show tagsFor [] n.id = ∅ from rfl, Finset.union_empty]
    rw [show apply_tags_to_notes col [] = col from rfl]
    exact ((List.map_congr_left hpt).trans (List.map_id col.notes)).symm
  | cons p rest ih =>
    rw [apply_tags_cons, ih, updateNoteTags, List.map_map]
    refine List.map_congr_left (fun n _ => ?_)
    simp only [Function.comp]
    by_cases h : n.id = p.1
    · rw [if_pos h]
      rw [tagsFor_cons_eq h.symm]
      simp only
      rw [Finset.union_assoc]
    · rw [if_neg h]
      rw [tagsFor_cons_ne (fun hh => h hh.symm)]

theorem col_eq_of_fields {a b : Col} (h1 : a.decks = b.decks) (h2 : a.cards = b.cards)
    (h3 : a.notes = b.notes) (h4 : a.nextDeckId = b.nextDeckId)
    (h5 : a.scratch = b.scratch) : a = b := by
  cases a; cases b
  simp_all

/-- Claim C7: tag application is idempotent — running `apply_tag_updates` a
second time with the identical update list leaves the collection, and in
particular every note's tag set, exactly as after the first run (the store
keeps tags as a set, so no duplicates can accumulate). -/
theorem apply_tags_to_notes_idempotent (col : Col) (updates : List (Nat × Finset String)) :
    apply_tags_to_notes (apply_tags_to_notes col updates) updates =
      apply_tags_to_notes col updates := by
  refine col_eq_of_fields ?_ ?_ ?_ ?_ ?_
  · rw [apply_tags_decks]
  · rw [apply_tags_cards]
  · rw [apply_tags_notes, apply_tags_notes, List.map_map]
    refine List.map_congr_left (fun n _ => ?_)
    simp only [Function.comp]
    rw [Finset.union_assoc, Finset.union_self]
  · rw [apply_tags_nextDeckId]
  · rw [apply_tags_scratch]

/-! ### The tag pass returns each note at most once -/

theorem filterMap_keyed_mem {β : Type} {l : List Nat} {f : Nat → Option (Nat × β)}
    (hf : ∀ n p, f n = some p → p.1 = n) {k : Nat}
    (hk : k ∈ (l.filterMap f).map Prod.fst) : k ∈ l := by
  induction l with
  | nil => simp at hk
  | cons n rest ih =>
    rw [List.filterMap_cons] at hk
    cases hfn : f n with
    | none =>
      rw [hfn] at hk
      exact List.mem_cons_of_mem n (ih hk)
    | some p =>
      rw [hfn] at hk
      rw [List.map_cons] at hk
      rcases List.mem_cons.mp hk with hk | hk
      · rw [hk, hf n p hfn]
        exact List.mem_cons_self n rest
      · exact List.mem_cons_of_mem n (ih hk)

theorem filterMap_keyed_nodup {β : Type} {l : List Nat} {f : Nat → Option (Nat × β)}
    (hf : ∀ n p, f n = some p → p.1 = n) (hl : l.Nodup) :
    ((l.filterMap f).map Prod.fst).Nodup := by
  induction l with
  | nil => simp
  | cons n rest ih =>
    rw [List.nodup_cons] at hl
    rw [List.filterMap_cons]
    cases hfn : f n with
    | none => exact ih hl.2
    | some p =>
      rw [List.map_cons, List.nodup_cons]
      refine ⟨fun habs => hl.1 ?_, ih hl.2⟩
      rw [← hf n p hfn]
      exact filterMap_keyed_mem hf habs

/-- Claim C10: the update list returned by `collect_note_tag_updates` names
each note at most once — the owning note ids are deduplicated before
synthesis, so the returned (note, tag set) pairs carry pairwise distinct
note ids. -/
theorem collect_note_tag_updates_note_ids_nodup (col : Col) (deckName : String) :
    ((collect_note_tag_updates col deckName).map Prod.fst).Nodup := by
  rw [collect_note_tag_updates]
  by_cases h1 : (tagScopeDeckIds col deckName).isEmpty = true
  · rw [if_pos h1]
    simp
  · rw [if_neg h1]
    by_cases h2 : (((col.cards.filter (fun c =>
        decide (c.did ∈ tagScopeDeckIds col deckName))).map (fun c => c.id)).isEmpty = true)
    · rw [if_pos h2]
      simp
    · rw [if_neg h2]
      refine filterMap_keyed_nodup ?_ (List.nodup_dedup _)
      intro n p hp
      by_cases hts : (noteTagSetFor col (tagScopeDeckIds col deckName) n).Nonempty
      · rw [if_pos hts] at hp
        cases hp
        rfl
      · rw [if_neg hts] at hp
        cases hp

end S2T
